import Mathlib

/-
  Verification development for the BulkReName rename engine
  (src/src/main.rs).  The engine's pure parts (block expansion,
  number formatting, suffix generation) are embedded directly; the
  stateful parts (the two-phase executor and the undo stack) are
  embedded as explicit state passing over a functional model of the
  filesystem.  External collaborators (the chrono date formatter, the
  wall clock, the nanosecond clock used for temp names, and the
  operating system's possible rename failures) are parameters.
-/

namespace BulkReName

/-- A filesystem path, split as the directory part and the final
file-name component.  The Rust code only ever manipulates the final
component (file_stem, extension, set_file_name, set_extension) and
keeps the directory of a file fixed (temp files are created with
dir.join), so a flat directory label is a faithful model. -/
structure Path where
  dir : String
  name : String
deriving DecidableEq, Repr

/-- The filesystem: a partial map from paths to file identities.
Two filesystems are equal for our purposes when they agree on every
path (FSeq below). -/
def FS := Path → Option Nat

/-- Pointwise equality of filesystem states. -/
def FSeq (f g : FS) : Prop := ∀ p, f p = g p

theorem FSeq.refl (f : FS) : FSeq f f := fun _ => rfl

theorem FSeq.symm {f g : FS} (h : FSeq f g) : FSeq g f := fun p => (h p).symm

theorem FSeq.trans {f g h : FS} (h1 : FSeq f g) (h2 : FSeq g h) : FSeq f h :=
  fun p => (h1 p).trans (h2 p)

/-- Model of std::fs::rename on POSIX: fails iff the source does not
exist; otherwise the file moves to the destination, silently replacing
any file already there.  none models Err. -/
def fsRename (fs : FS) (src dst : Path) : Option FS :=
  match fs src with
  | none => none
  | some v => some (fun p => if p = dst then some v else if p = src then none else fs p)

/-- Model of Path::exists. -/
def fsExists (fs : FS) (p : Path) : Bool := (fs p).isSome

/-- Splits a file name at the last dot, mirroring Rust's
Path::file_stem / Path::extension: a dot in the leading position does
not start an extension, so a name such as .tmp-1-0 has no extension
and is its own stem. -/
def splitExt (name : String) : String × Option String :=
  let rev := name.toList.reverse
  match rev.dropWhile (fun c => c ≠ '.') with
  | '.' :: b :: bs => (String.mk ((b :: bs).reverse), some (String.mk ((rev.takeWhile (fun c => c ≠ '.')).reverse)))
  | _ => (name, none)

/-- Rust Path::file_stem on the final component (unwrap_or "" as in
the source). -/
def fileStem (name : String) : String := (splitExt name).1

/-- Rust Path::extension on the final component. -/
def fileExt (name : String) : Option String := (splitExt name).2

/-- Rust PathBuf::set_file_name: replace the final component. -/
def set_file_name (p : Path) (tname : String) : Path :=
  { dir := p.dir, name := tname }

/-- Rust PathBuf::set_extension: replace the extension if the name has
one, append a dotted extension otherwise. -/
def setExtension (p : Path) (e : String) : Path :=
  match fileExt p.name with
  | some _ => { p with name := fileStem p.name ++ "." ++ e }
  | none => { p with name := p.name ++ "." ++ e }

/-- Embedding of append_suffix_before_ext (main.rs 374-384). -/
def append_suffix_before_ext (p : Path) (suffix : String) : Path :=
  let stem := fileStem p.name
  let ext := fileExt p.name
  let new_stem := stem ++ suffix
  match ext with
  | some e => { dir := p.dir, name := new_stem ++ "." ++ e }
  | none => { dir := p.dir, name := new_stem }

/-- Embedding of the Block enum (main.rs 17-23). -/
inductive Block where
  | Literal (s : String)
  | Number (width : Nat) (start step : Int)
  | Date (format : String)
  | Original
deriving DecidableEq, Repr

/-- Embedding of the CollisionStrategy enum (main.rs 30-35). -/
inductive CollisionStrategy where
  | Overwrite
  | Skip
  | Suffix
deriving DecidableEq, Repr

/-- The fields of RenamerApp that the rename engine reads and writes
(main.rs 45-62).  last_actions is the undo stack: the head of the
list is the most recently pushed mapping (the end of the Rust Vec);
messages are kept in chronological order. -/
structure AppState where
  files : List Path
  blocks : List Block
  collision : CollisionStrategy
  use_mtime_for_date : Bool
  last_actions : List (List (Path × Path))
  messages : List String
deriving Repr

/-- Left-pad a string with zeros up to a total width. -/
def leftPad0 (width : Nat) (s : String) : String :=
  String.mk (List.replicate (width - s.length) '0') ++ s

/-- Rust's sign-aware zero-padded formatting of an integer to a
minimum width, as produced by the {:0width$} format specifier: the
zeros go between the minus sign and the digits, and the sign counts
toward the width. -/
def rustZeroPad (val : Int) (width : Nat) : String :=
  if val < 0 then "-" ++ leftPad0 (width - 1) (toString val.natAbs)
  else leftPad0 width (toString val.natAbs)

/-- Embedding of format_number (main.rs 150-158).  The idx as i64
cast and the i64 arithmetic are modelled over Int (the claims are not
about overflow). -/
def format_number (idx : Nat) (width : Nat) (start step : Int) : String :=
  let val : Int := start + (idx : Int) * step
  let s := toString val
  if width > 0 ∧ s.length < width then rustZeroPad val width else s

/-- One iteration of the generate_targets loop body (main.rs 162-192)
for the file at position idx: the Local::now() reading of that
iteration is clock idx, and fmtDate models chrono's
DateTime::format rendering of a strftime pattern at a time value. -/
def targetName (blocks : List Block) (fmtDate : String → Nat → String)
    (now : Nat) (idx : Nat) (p : Path) : String :=
  let file_name := fileStem p.name
  let ext := fileExt p.name
  let parts := blocks.map (fun b =>
    match b with
    | Block.Literal s => s
    | Block.Number width start step => format_number idx width start step
    | Block.Date format => fmtDate format now
    | Block.Original => file_name)
  let base := String.join parts
  match ext with
  | some e => base ++ "." ++ e
  | none => base

/-- The generate_targets loop (main.rs 160-195) as a recursion over
the remaining files carrying the enumeration index.  Local::now() is
called once per iteration, so the Date reading for the file at index
idx is clock idx. -/
def generate_go (blocks : List Block) (fmtDate : String → Nat → String)
    (clock : Nat → Nat) : Nat → List Path → List String
  | _, [] => []
  | idx, fe :: rest =>
      targetName blocks fmtDate (clock idx) idx fe ::
        generate_go blocks fmtDate clock (idx + 1) rest

/-- Embedding of generate_targets (main.rs 160-195). -/
def generate_targets (st : AppState) (fmtDate : String → Nat → String)
    (clock : Nat → Nat) : List String :=
  generate_go st.blocks fmtDate clock 0 st.files

/-- The external world the engine interacts with: the chrono date
formatter, the per-iteration wall clock of the generate loop, the
per-entry nanosecond clock used for temp names, the fuel bound used
to run the otherwise unbounded suffix-probe loop, and OS failure
oracles for the phase-1 and phase-2 rename syscalls (err1 k models an
OS error on the k-th staging rename, err2 j on the j-th commit
rename). -/
structure Env where
  fmtDate : String → Nat → String
  clock : Nat → Nat
  nanosAt : Nat → Nat
  suffixFuel : Nat
  err1 : Nat → Bool
  err2 : Nat → Bool

/-- The suffix-probing loop of execute_rename (main.rs 269-280),
run on fuel because the source loop is unbounded; none models the
loop not terminating within the given fuel. -/
def suffixProbe (fs : FS) (desired : Path) : Nat → Nat → Option Path
  | 0, _ => none
  | fuel + 1, n =>
      let candidate := append_suffix_before_ext desired (" (" ++ toString n ++ ")")
      if fsExists fs candidate then suffixProbe fs desired fuel (n + 1)
      else some candidate

/-- The collision-resolution step of the planning loop
(main.rs 262-283): Overwrite keeps the desired path, Skip retreats to
the origin, Suffix probes numbered candidates; nothing changes when
the desired path does not exist. -/
def resolveCollision (fs : FS) (collision : CollisionStrategy) (fuel : Nat)
    (orig desired : Path) : Option Path :=
  if fsExists fs desired then
    match collision with
    | CollisionStrategy.Overwrite => some desired
    | CollisionStrategy.Skip => some orig
    | CollisionStrategy.Suffix => suffixProbe fs desired fuel 1
  else some desired

/-- The temp path of entry i (main.rs 287-293): dir.join of
".tmp-{nanos}-{i}" followed by set_extension("tmp").  The joined name
has no extension (its only dot leads), so set_extension appends
".tmp". -/
def tmpPath (orig : Path) (nanos : Nat) (i : Nat) : Path :=
  setExtension { dir := orig.dir, name := ".tmp-" ++ toString nanos ++ "-" ++ toString i } "tmp"

/-- One entry of the robust_map: (origin, temp, final). -/
structure Entry where
  origin : Path
  temp : Path
  final : Path
deriving DecidableEq, Repr

/-- The robust_map construction loop of execute_rename
(main.rs 256-295), over the enumerated (origin, desired-final) pairs;
entries whose resolved path equals their origin are filtered out.
The outer none propagates a non-terminating suffix probe. -/
def planBatch (fs : FS) (collision : CollisionStrategy) (fuel : Nat)
    (nanosAt : Nat → Nat) : Nat → List (Path × Path) → Option (List Entry)
  | _, [] => some []
  | i, (orig, desiredRaw) :: rest =>
      match resolveCollision fs collision fuel orig desiredRaw with
      | none => none
      | some desired =>
          match planBatch fs collision fuel nanosAt (i + 1) rest with
          | none => none
          | some entries =>
              if desired = orig then some entries
              else some ({ origin := orig, temp := tmpPath orig (nanosAt i) i,
                           final := desired } :: entries)

/-- Which rename site of the executor produced a trace event. -/
inductive Tag where
  | stage
  | unstageP1
  | commit
  | unstageP2
  | revertCommitted
deriving DecidableEq, Repr

/-- Ghost instrumentation: a record of one fs::rename call performed
by the executor (its site, source, destination and success). -/
structure Evt where
  tag : Tag
  src : Path
  dst : Path
  ok : Bool
deriving DecidableEq, Repr

/-- The phase-1 rollback loop (main.rs 309-311): the staged temps are
renamed back to their origins in reverse order of staging, errors
ignored. -/
def rollbackP1 (fs : FS) (temps : List (Path × Path)) (tr : List Evt) :
    FS × List Evt :=
  (temps.reverse).foldl
    (fun acc pr =>
      match fsRename acc.1 pr.1 pr.2 with
      | some f2 => (f2, acc.2 ++ [⟨Tag.unstageP1, pr.1, pr.2, true⟩])
      | none => (acc.1, acc.2 ++ [⟨Tag.unstageP1, pr.1, pr.2, false⟩]))
    (fs, tr)

/-- Result of phase 1 (Step A, main.rs 304-316): on failure the
returned state is the one after the rollback walk. -/
inductive P1Res where
  | ok (fs : FS) (temps : List (Path × Path)) (tr : List Evt)
  | fail (fs : FS) (tr : List Evt) (msg : String)

/-- Rendering of a path inside a report message. -/
def pathStr (p : Path) : String := p.dir ++ "/" ++ p.name

/-- The phase-1 staging loop (Step A, main.rs 303-316): each entry's
origin is renamed to its temp; the k-th syscall may be failed by the
OS oracle; on the first failure the already-staged temps are rolled
back in reverse and the run aborts. -/
def phase1 (err : Nat → Bool) : FS → Nat → List Entry → List (Path × Path) →
    List Evt → P1Res
  | fs, _, [], temps, tr => P1Res.ok fs temps tr
  | fs, k, e :: rest, temps, tr =>
      match (if err k then none else fsRename fs e.origin e.temp) with
      | some fs2 =>
          phase1 err fs2 (k + 1) rest (temps ++ [(e.temp, e.origin)])
            (tr ++ [⟨Tag.stage, e.origin, e.temp, true⟩])
      | none =>
          let r := rollbackP1 fs temps (tr ++ [⟨Tag.stage, e.origin, e.temp, false⟩])
          P1Res.fail r.1 r.2
            ("Failed to move " ++ pathStr e.origin ++ " -> " ++ pathStr e.temp)

/-- The phase-2 rollback walk over temps_created (main.rs 326-330):
forward order, each temp renamed back to its origin only if the temp
still exists, errors ignored. -/
def rollbackP2 (fs : FS) (temps : List (Path × Path)) (tr : List Evt) :
    FS × List Evt :=
  temps.foldl
    (fun acc pr =>
      if fsExists acc.1 pr.1 then
        match fsRename acc.1 pr.1 pr.2 with
        | some f2 => (f2, acc.2 ++ [⟨Tag.unstageP2, pr.1, pr.2, true⟩])
        | none => (acc.1, acc.2 ++ [⟨Tag.unstageP2, pr.1, pr.2, false⟩])
      else acc)
    (fs, tr)

/-- The phase-2 walk over final_mappings (main.rs 331-335): each
already-committed final is renamed back to its origin if it exists.
The source populates final_mappings with nothing (it is created empty
at main.rs 319 and never inserted into), so the list passed in by
phase2 is always []. -/
def revertCommitted (fs : FS) (final_mappings : List (Path × Path))
    (tr : List Evt) : FS × List Evt :=
  final_mappings.foldl
    (fun acc of =>
      if fsExists acc.1 of.2 then
        match fsRename acc.1 of.2 of.1 with
        | some f2 => (f2, acc.2 ++ [⟨Tag.revertCommitted, of.2, of.1, true⟩])
        | none => (acc.1, acc.2 ++ [⟨Tag.revertCommitted, of.2, of.1, false⟩])
      else acc)
    (fs, tr)

/-- Result of phase 2 (Step B, main.rs 318-339). -/
inductive P2Res where
  | ok (fs : FS) (tr : List Evt)
  | fail (fs : FS) (tr : List Evt) (msg : String)

/-- The phase-2 commit loop (Step B, main.rs 318-339): each staged
temp is renamed to its final path; the j-th syscall may be failed by
the OS oracle; on the first failure the surviving temps are rolled
back and the (always empty) final_mappings walk runs. -/
def phase2 (err : Nat → Bool) (temps : List (Path × Path)) : FS → Nat →
    List Entry → List Evt → P2Res
  | fs, _, [], tr => P2Res.ok fs tr
  | fs, j, e :: rest, tr =>
      match (if err j then none else fsRename fs e.temp e.final) with
      | some fs2 =>
          phase2 err temps fs2 (j + 1) rest
            (tr ++ [⟨Tag.commit, e.temp, e.final, true⟩])
      | none =>
          let a := rollbackP2 fs temps (tr ++ [⟨Tag.commit, e.temp, e.final, false⟩])
          let final_mappings : List (Path × Path) := []
          let b := revertCommitted a.1 final_mappings a.2
          P2Res.fail b.1 b.2
            ("Failed to move temp " ++ pathStr e.temp ++ " -> final " ++ pathStr e.final)

/-- HashMap::insert keyed on the origin path: any earlier binding of
the same key is replaced; iteration is modelled in insertion order
(Rust's HashMap iteration order is unspecified, so any fixed order is
a refinement of it). -/
def hmInsert (m : List (Path × Path)) (k v : Path) : List (Path × Path) :=
  (m.filter (fun kv => kv.1 ≠ k)) ++ [(k, v)]

/-- The outcome of one execute_rename call: the updated application
state, the filesystem afterwards, and the trace of rename syscalls
the executor performed or attempted. -/
structure ExecRes where
  st : AppState
  fs : FS
  trace : List Evt

/-- The planning prefix of execute_rename (main.rs 244-295): compute
the targets, set each file name on its origin path, and build the
robust_map. -/
def plannedBatch (st : AppState) (fs : FS) (env : Env) : Option (List Entry) :=
  let targets := generate_targets st env.fmtDate env.clock
  let final_paths := (st.files.zip targets).map (fun ft => set_file_name ft.1 ft.2)
  planBatch fs st.collision env.suffixFuel env.nanosAt 0 (st.files.zip final_paths)

/-- Embedding of execute_rename (main.rs 243-348).  The result is
none exactly when the suffix-probe loop fails to terminate within the
environment's fuel. -/
def execute_rename (st : AppState) (fs : FS) (env : Env) : Option ExecRes :=
  let targets := generate_targets st env.fmtDate env.clock
  if targets.length ≠ st.files.length then some ⟨st, fs, []⟩
  else
    match plannedBatch st fs env with
    | none => none
    | some robust_map =>
        if robust_map.isEmpty then
          some ⟨{ st with messages :=
                    st.messages ++ ["No files to rename (all skipped or no files)."] },
                fs, []⟩
        else
          match phase1 env.err1 fs 0 robust_map [] [] with
          | P1Res.fail fs1 tr msg =>
              some ⟨{ st with messages :=
                        st.messages ++ [msg, "Performed rollback after failure."] },
                    fs1, tr⟩
          | P1Res.ok fs1 temps_created tr =>
              match phase2 env.err2 temps_created fs1 0 robust_map tr with
              | P2Res.fail fs2 tr2 msg =>
                  some ⟨{ st with messages :=
                            st.messages ++
                              [msg, "Attempted rollback after partial failure."] },
                        fs2, tr2⟩
              | P2Res.ok fs2 tr2 =>
                  let undo_map := robust_map.foldl
                    (fun m e => hmInsert m e.origin e.final) []
                  some ⟨{ st with
                            last_actions := undo_map :: st.last_actions,
                            messages := st.messages ++ ["Rename completed successfully."] },
                        fs2, tr2⟩

/-- The loop body of undo (main.rs 352-366) for one (origin, final)
pair: rename the final back to the origin when the final still
exists, collecting a report message otherwise; rename errors are
reported, not propagated. -/
def undoStep (acc : FS × List String) (of : Path × Path) : FS × List String :=
  if fsExists acc.1 of.2 then
    match fsRename acc.1 of.2 of.1 with
    | some f2 => (f2, acc.2)
    | none => (acc.1, acc.2 ++
        ["Failed to undo " ++ pathStr of.2 ++ " -> " ++ pathStr of.1])
  else
    (acc.1, acc.2 ++ ["Cannot undo, final file missing: " ++ pathStr of.2])

/-- Embedding of undo (main.rs 350-371): pop the most recent mapping
(if any) and try to rename each final path back to its origin; a
missing final is reported and skipped; the popped mapping is never
pushed back. -/
def undo (st : AppState) (fs : FS) : AppState × FS :=
  match st.last_actions with
  | [] => ({ st with messages := st.messages ++ ["No actions to undo."] }, fs)
  | mapping :: rest =>
      let r := mapping.foldl undoStep (fs, [])
      ({ st with last_actions := rest,
                 messages := st.messages ++ r.2 ++ ["Undo attempted."] },
       r.1)

/-! Specification-side definitions, written from the words of the
claims (never from the code), to be compared with the embedded code
above. -/

/-- The render of one block for the file at position i as claim C4
words it: a Literal verbatim, Original the file's stem, Number per
format_number, Date the formatted time reading. -/
def renderBlock (fmtDate : String → Nat → String) (now : Nat) (stem : String)
    (i : Nat) : Block → String
  | Block.Literal s => s
  | Block.Number w a d => format_number i w a d
  | Block.Date f => fmtDate f now
  | Block.Original => stem

/-- The name claim C4 specifies for the file at position i: the
rendered block strings concatenated in block order, with the file's
original extension appended as a dotted suffix when present. -/
def targetNameSpec (blocks : List Block) (fmtDate : String → Nat → String)
    (now : Nat) (i : Nat) (p : Path) : String :=
  (blocks.map (renderBlock fmtDate now (fileStem p.name) i)).foldr
      (fun a b => a ++ b) "" ++
    (match fileExt p.name with
     | some e => "." ++ e
     | none => "")

/-- The rendering rule exactly as claim C8 states it: when the
natural signed decimal string is shorter than the width, the whole
string, minus sign included, is left-padded with zero characters. -/
def format_number_claimed (idx width : Nat) (start step : Int) : String :=
  let s := toString (start + (idx : Int) * step)
  if s.length < width then leftPad0 width s else s

/-- Claim C8 as amended: the zero padding is sign-aware.  A negative
value keeps its minus sign leftmost and pads the digit part to
width - 1 characters; a non-negative value is left-padded to width;
in both cases padding happens only when the natural representation is
shorter than width, because padding to an already-reached width adds
nothing. -/
def format_number_amended (idx width : Nat) (start step : Int) : String :=
  let val : Int := start + (idx : Int) * step
  if val < 0 then "-" ++ leftPad0 (width - 1) (toString val.natAbs)
  else leftPad0 width (toString val.natAbs)

/-- The n-th suffix candidate probed by the Suffix strategy. -/
def sfxCand (desired : Path) (n : Nat) : Path :=
  append_suffix_before_ext desired (" (" ++ toString n ++ ")")

/-- The candidate name as claim C7 describes it: the numbered marker
inserted immediately before the extension, or appended to the stem
when there is no extension. -/
def sfxNameSpec (name : String) (n : Nat) : String :=
  match splitExt name with
  | (stem, some e) => stem ++ " (" ++ toString n ++ ")." ++ e
  | (stem, none) => stem ++ " (" ++ toString n ++ ")"

/-! Proof-side descriptions of batches and of the filesystem states
the executor passes through. -/

/-- A well-formed staged batch against a filesystem: origins are
pairwise distinct and present, temp names are pairwise distinct and
free.  This is what the engine assumes of its uniquely generated temp
names (spec section 3: temp paths are unique within a batch). -/
@[reducible] def PlanOk (fs : FS) (rm : List Entry) : Prop :=
  rm.Pairwise (fun a b => a.origin ≠ b.origin ∧ a.temp ≠ b.temp) ∧
  ∀ e ∈ rm, (fs e.origin).isSome ∧ fs e.temp = none

/-- A fully well-formed batch: in addition to PlanOk, the final
paths are pairwise distinct, do not meet any origin or temp of the
batch, and are free on the starting filesystem. -/
@[reducible] def FullPlanOk (fs : FS) (rm : List Entry) : Prop :=
  PlanOk fs rm ∧
  rm.Pairwise (fun a b => a.final ≠ b.final) ∧
  (∀ e ∈ rm, ∀ e2 ∈ rm, e.final ≠ e2.origin ∧ e.final ≠ e2.temp) ∧
  ∀ e ∈ rm, fs e.final = none

/-- The filesystem after staging every entry of a batch in order,
each rename forced (used only to describe successful runs). -/
def stageAll (fs : FS) (rm : List Entry) : FS :=
  rm.foldl
    (fun f e =>
      match fsRename f e.origin e.temp with
      | some f2 => f2
      | none => f)
    fs

/-- Pointwise description of the staged filesystem: every temp holds
its origin's file, origins are gone, everything else untouched. -/
def stagedFS (fs : FS) (rm : List Entry) : FS := fun p =>
  match rm.find? (fun e => e.temp = p) with
  | some e => fs e.origin
  | none => if rm.any (fun e => e.origin = p) then none else fs p

/-- Pointwise description of the committed filesystem: every final
holds its origin's file, origins and temps are gone, everything else
untouched. -/
def applyBatch (fs : FS) (rm : List Entry) : FS := fun p =>
  match rm.find? (fun e => e.final = p) with
  | some e => fs e.origin
  | none =>
      if rm.any (fun e => e.origin = p || e.temp = p) then none else fs p

/-- Pointwise description of committing a batch over an already
staged state S, the committed values being the origins' files on the
original filesystem fs. -/
def commitFS (fs S : FS) (rm : List Entry) : FS := fun p =>
  match rm.find? (fun e => e.final = p) with
  | some e => fs e.origin
  | none => if rm.any (fun e => e.temp = p) then none else S p

/-- A two-file state renaming a.x to na.x and b.y to nb.y, shared by
the executor scenarios. -/
def demo_st : AppState :=
  { files := [⟨"d", "a.x"⟩, ⟨"d", "b.y"⟩],
    blocks := [Block.Literal "n", Block.Original],
    collision := CollisionStrategy.Overwrite,
    use_mtime_for_date := true,
    last_actions := [],
    messages := [] }

/-- A directory holding exactly the two files of demo_st. -/
def demo_fs : FS := fun p =>
  if p = ⟨"d", "a.x"⟩ then some 1
  else if p = ⟨"d", "b.y"⟩ then some 2 else none

/-- The batch the planner builds for demo_st over demo_fs with the
nanosecond clock stuck at 7. -/
def demo_rm : List Entry :=
  [⟨⟨"d", "a.x"⟩, ⟨"d", ".tmp-7-0.tmp"⟩, ⟨"d", "na.x"⟩⟩,
   ⟨⟨"d", "b.y"⟩, ⟨"d", ".tmp-7-1.tmp"⟩, ⟨"d", "nb.y"⟩⟩]

/-- An environment whose OS fails the second phase-2 commit rename
and nothing else. -/
def c1_env : Env :=
  { fmtDate := fun _ _ => "", clock := fun _ => 0, nanosAt := fun _ => 7,
    suffixFuel := 5, err1 := fun _ => false, err2 := fun j => j == 1 }

/-- An environment whose OS fails the second phase-1 staging rename
and nothing else. -/
def c2_env : Env :=
  { fmtDate := fun _ _ => "", clock := fun _ => 0, nanosAt := fun _ => 7,
    suffixFuel := 5, err1 := fun k => k == 1, err2 := fun _ => false }

/-- An environment with no injected failures. -/
def c3_env : Env :=
  { fmtDate := fun _ _ => "", clock := fun _ => 0, nanosAt := fun _ => 7,
    suffixFuel := 5, err1 := fun _ => false, err2 := fun _ => false }

/-- A state that renumbers 1.txt and 2.txt in reverse: the Number
block start 2 step -1 sends 1.txt to 2.txt and 2.txt to 1.txt, each
final name being the other entry's vacated origin (the rename-chain
case the two-phase staging exists to support). -/
def c3swap_st : AppState :=
  { files := [⟨"d", "1.txt"⟩, ⟨"d", "2.txt"⟩],
    blocks := [Block.Number 0 2 (-1)],
    collision := CollisionStrategy.Overwrite,
    use_mtime_for_date := true,
    last_actions := [],
    messages := [] }

/-- A directory holding exactly 1.txt (file 1) and 2.txt (file 2). -/
def c3swap_fs : FS := fun p =>
  if p = ⟨"d", "1.txt"⟩ then some 1
  else if p = ⟨"d", "2.txt"⟩ then some 2 else none

/-! Concrete scenarios used by the claims' examples, witnesses and
counterexamples. -/

/-- The application state of claim C4's example: files b.txt and
a.txt in that selection order under the default template blocks. -/
def c4_st : AppState :=
  { files := [⟨"d", "b.txt"⟩, ⟨"d", "a.txt"⟩],
    blocks := [Block.Number 4 1 1, Block.Literal "_", Block.Original],
    collision := CollisionStrategy.Suffix,
    use_mtime_for_date := true,
    last_actions := [],
    messages := [] }

/-- Two files with the same file name in different directories and a
lone Date block: any difference between their generated names can
only come from the Date render. -/
def c5_st : AppState :=
  { files := [⟨"d1", "a.x"⟩, ⟨"d2", "a.x"⟩],
    blocks := [Block.Date "%S"],
    collision := CollisionStrategy.Suffix,
    use_mtime_for_date := true,
    last_actions := [],
    messages := [] }

/-- A date formatter that renders the raw time reading, standing for
any strftime pattern fine enough to distinguish two readings. -/
def c5_fmt : String → Nat → String := fun _ t => toString t

/-- A wall clock that advances between the two loop iterations. -/
def c5_clock : Nat → Nat := fun i => i

/-- A directory holding only x.txt. -/
def c7_fs1 : FS := fun p => if p = ⟨"d", "x.txt"⟩ then some 1 else none

/-- A directory holding x.txt and x (1).txt. -/
def c7_fs2 : FS := fun p =>
  if p = ⟨"d", "x.txt"⟩ then some 1
  else if p = ⟨"d", "x (1).txt"⟩ then some 2 else none

/-- An unrelated origin path for the Suffix examples (the Suffix
branch never reads the origin). -/
def c7_orig : Path := ⟨"d", "y.txt"⟩

/-- A state whose single file keeps its own name under the Original
template, so the whole batch reduces to a no-op. -/
def c9_st : AppState :=
  { files := [⟨"d", "a.txt"⟩],
    blocks := [Block.Original],
    collision := CollisionStrategy.Skip,
    use_mtime_for_date := true,
    last_actions := [],
    messages := [] }

/-- A directory holding exactly the file of c9_st. -/
def c9_fs : FS := fun p => if p = ⟨"d", "a.txt"⟩ then some 1 else none

/-- A benign environment: constant clocks, ample fuel, no injected
rename failures. -/
def c9_env : Env :=
  { fmtDate := fun _ _ => "", clock := fun _ => 0, nanosAt := fun _ => 0,
    suffixFuel := 3, err1 := fun _ => false, err2 := fun _ => false }

/-! Helper lemmas. -/

theorem leftPad0_of_ge {w : Nat} {s : String} (h : s.length ≥ w) :
    leftPad0 w s = s := by
  unfold leftPad0
  have hz : w - s.length = 0 := Nat.sub_eq_zero_of_le h
  rw [hz]
  simp [String.mk]

theorem toString_int_neg {v : Int} (h : v < 0) :
    toString v = "-" ++ toString v.natAbs := by
  cases v with
  | ofNat n => exact absurd h (Int.not_lt.mpr (Int.ofNat_nonneg n))
  | negSucc m => rfl

theorem toString_int_nonneg {v : Int} (h : ¬ v < 0) :
    toString v = toString v.natAbs := by
  cases v with
  | ofNat n => rfl
  | negSucc m => exact absurd (Int.negSucc_lt_zero m) h

/-- Claim C8: for every index and Number block the rendered string is
the natural signed decimal when it already reaches the width, and the
sign-aware zero-padded form otherwise; this is the claim as amended,
the padding keeping the minus sign leftmost rather than padding the
whole string. -/
theorem c8_number_padding (idx width : Nat) (start step : Int) :
    format_number idx width start step = format_number_amended idx width start step := by
  unfold format_number format_number_amended
  dsimp only
  by_cases hneg : start + (idx : Int) * step < 0
  · rw [if_pos hneg]
    have hs := toString_int_neg hneg
    split
    · rw [rustZeroPad, if_pos hneg]
    · next hcond =>
      rw [hs]
      rcases Nat.lt_or_ge (toString (start + (idx : Int) * step)).length width with hlt | hge
      · rcases Nat.eq_zero_or_pos width with hw | hw
        · rw [hw]
          simp only [Nat.zero_sub]
          rw [leftPad0_of_ge (Nat.zero_le _)]
        · exact absurd ⟨hw, hlt⟩ hcond
      · rw [hs, String.length_append] at hge
        have : (toString (start + (idx : Int) * step).natAbs).length ≥ width - 1 := by
          have hone : ("-" : String).length = 1 := rfl
          omega
        rw [leftPad0_of_ge this]
  · rw [if_neg hneg]
    have hs := toString_int_nonneg hneg
    split
    · rw [rustZeroPad, if_neg hneg]
    · next hcond =>
      rw [hs]
      rcases Nat.lt_or_ge (toString (start + (idx : Int) * step)).length width with hlt | hge
      · rcases Nat.eq_zero_or_pos width with hw | hw
        · rw [hw, leftPad0_of_ge (Nat.zero_le _)]
        · exact absurd ⟨hw, hlt⟩ hcond
      · rw [hs] at hge
        rw [leftPad0_of_ge hge]

/-- Claim C8, counterexample to the claim as frozen: at the Number
block width 4, start -5, step 0 and index 0 the code renders "-005"
(sign-aware padding), not the plain left-padded "00-5" the claim's
words produce. -/
theorem c8_counterexample :
    format_number 0 4 (-5) 0 = "-005" ∧
    format_number_claimed 0 4 (-5) 0 = "00-5" ∧
    format_number 0 4 (-5) 0 ≠ format_number_claimed 0 4 (-5) 0 := by
  refine ⟨by decide, by decide, by decide⟩

/-- Claim C6: the use_mtime_for_date flag is never consulted by
generate_targets: flipping only that flag leaves the produced name
sequence identical, the Date blocks reading only the supplied clock. -/
theorem c6_use_mtime_never_consulted (st : AppState) (b : Bool)
    (fmtDate : String → Nat → String) (clock : Nat → Nat) :
    generate_targets { st with use_mtime_for_date := b } fmtDate clock =
      generate_targets st fmtDate clock := rfl

/-- Claim C10: undo always pops the most recent undo mapping and
discards it permanently, whatever happens to the individual renames:
for every state and filesystem the stack after undo is the tail of
the stack before, so a failed batch can never be retried. -/
theorem c10_undo_discards_popped_entry (st : AppState) (fs : FS) :
    ((undo st fs).1).last_actions = st.last_actions.tail := by
  cases h : st.last_actions with
  | nil => simp [undo, h]
  | cons m rest => simp [undo, h]

theorem foldl_string_append (l : List String) (a : String) :
    l.foldl (fun r s => r ++ s) a = a ++ l.foldr (fun r s => r ++ s) "" := by
  induction l generalizing a with
  | nil => simp
  | cons x xs ih =>
      simp only [List.foldl_cons, List.foldr_cons, ih, String.append_assoc]

theorem join_eq_foldr (l : List String) :
    String.join l = l.foldr (fun r s => r ++ s) "" := by
  rw [String.join, foldl_string_append]
  simp

theorem targetName_eq_spec (blocks : List Block)
    (fmtDate : String → Nat → String) (now i : Nat) (p : Path) :
    targetName blocks fmtDate now i p = targetNameSpec blocks fmtDate now i p := by
  unfold targetName targetNameSpec renderBlock
  dsimp only
  rw [join_eq_foldr]
  cases h : fileExt p.name with
  | none => simp
  | some e => simp [String.append_assoc]

theorem generate_go_length (blocks : List Block)
    (fmtDate : String → Nat → String) (clock : Nat → Nat) (k : Nat)
    (files : List Path) :
    (generate_go blocks fmtDate clock k files).length = files.length := by
  induction files generalizing k with
  | nil => rfl
  | cons f rest ih => simp [generate_go, ih]

theorem generate_go_getElem (blocks : List Block)
    (fmtDate : String → Nat → String) (clock : Nat → Nat)
    (files : List Path) :
    ∀ (k i : Nat), (generate_go blocks fmtDate clock k files)[i]? =
      (files[i]?).map (fun p => targetName blocks fmtDate (clock (k + i)) (k + i) p) := by
  induction files with
  | nil => intro k i; simp [generate_go]
  | cons f rest ih =>
      intro k i
      cases i with
      | zero => simp [generate_go]
      | succ j =>
          simp only [generate_go, List.getElem?_cons_succ]
          rw [ih (k + 1) j]
          have : k + 1 + j = k + (j + 1) := by omega
          rw [this]

/-- Claim C4: generate_targets yields exactly one name per file, in
file order, the name at position i being the blocks' renders
concatenated in order with the original extension reattached; in
particular the default template over b.txt, a.txt yields
0001_b.txt, 0002_a.txt. -/
theorem c4_generate_targets :
    (∀ (st : AppState) (fmtDate : String → Nat → String) (clock : Nat → Nat),
        (generate_targets st fmtDate clock).length = st.files.length ∧
        ∀ i : Nat, (generate_targets st fmtDate clock)[i]? =
          (st.files[i]?).map (fun p => targetNameSpec st.blocks fmtDate (clock i) i p)) ∧
    generate_targets c4_st (fun _ _ => "") (fun _ => 0) = ["0001_b.txt", "0002_a.txt"] := by
  constructor
  · intro st fmtDate clock
    constructor
    · exact generate_go_length st.blocks fmtDate clock 0 st.files
    · intro i
      rw [generate_targets, generate_go_getElem st.blocks fmtDate clock st.files 0 i]
      simp only [Nat.zero_add]
      cases h : st.files[i]? with
      | none => rfl
      | some p => simp [targetName_eq_spec]
  · decide

/-- Claim C5, counterexample to the claim as frozen: Local::now() is
sampled once per file inside the generate_targets loop, not once per
call, so with a clock that advances between the two iterations and a
format fine enough to show it, two files that agree in stem and
extension receive different Date renders. -/
theorem c5_counterexample :
    c5_st.files.map Path.name = ["a.x", "a.x"] ∧
    generate_targets c5_st c5_fmt c5_clock = ["0.x", "1.x"] ∧
    (generate_targets c5_st c5_fmt c5_clock)[0]? ≠
      (generate_targets c5_st c5_fmt c5_clock)[1]? := by
  refine ⟨by decide, by decide, by decide⟩

/-- Claim C5 as amended: each Date block renders the clock reading
sampled at that file's own loop iteration; whenever all iterations
sample the same reading (the clock does not advance during the call),
the run equals a constant-clock run and every file's name uses that
single reading, so the Date contribution does not vary per file. -/
theorem c5_amended (st : AppState) (fmtDate : String → Nat → String)
    (clock : Nat → Nat) (c : Nat) (h : ∀ i, clock i = c) :
    generate_targets st fmtDate clock = generate_targets st fmtDate (fun _ => c) ∧
    ∀ i : Nat, (generate_targets st fmtDate clock)[i]? =
      (st.files[i]?).map (fun p => targetNameSpec st.blocks fmtDate c i p) := by
  have hc : clock = fun _ => c := funext h
  subst hc
  constructor
  · rfl
  · intro i
    rw [generate_targets, generate_go_getElem st.blocks fmtDate _ st.files 0 i]
    simp only [Nat.zero_add]
    cases hf : st.files[i]? with
    | none => rfl
    | some p => simp [targetName_eq_spec]

/-- Witness for the amended claim C5 at a concrete constant clock. -/
theorem c5_amended_witness :
    generate_targets c5_st c5_fmt (fun _ => 5) =
      generate_targets c5_st c5_fmt (fun _ => 5) ∧
    ∀ i : Nat, (generate_targets c5_st c5_fmt (fun _ => 5))[i]? =
      (c5_st.files[i]?).map (fun p => targetNameSpec c5_st.blocks c5_fmt 5 i p) :=
  c5_amended c5_st c5_fmt (fun _ => 5) 5 (fun _ => rfl)

theorem sfxCand_eq_spec (desired : Path) (n : Nat) :
    sfxCand desired n = ⟨desired.dir, sfxNameSpec desired.name n⟩ := by
  unfold sfxCand append_suffix_before_ext sfxNameSpec fileStem fileExt
  dsimp only
  cases h : splitExt desired.name with
  | mk stem extOpt =>
      cases extOpt with
      | none => simp [String.append_assoc]
      | some e =>
          have hjoin : (")" : String) ++ ("." ++ e) = ")." ++ e := rfl
          simp only [String.append_assoc]
          rw [hjoin]

theorem suffixProbe_finds (fs : FS) (desired : Path) :
    ∀ (fuel m n : Nat), m ≤ n → n - m < fuel →
    (∀ j, m ≤ j → j < n → fsExists fs (sfxCand desired j) = true) →
    fsExists fs (sfxCand desired n) = false →
    suffixProbe fs desired fuel m = some (sfxCand desired n) := by
  intro fuel
  induction fuel with
  | zero => intro m n _ hlt _ _; omega
  | succ f ih =>
      intro m n hmn hlt hocc hfree
      have hstep : suffixProbe fs desired (f + 1) m =
          if fsExists fs (sfxCand desired m) then suffixProbe fs desired f (m + 1)
          else some (sfxCand desired m) := rfl
      rcases Nat.eq_or_lt_of_le hmn with heq | hlt2
      · subst heq
        rw [hstep, hfree]
        simp
      · have hm : fsExists fs (sfxCand desired m) = true :=
          hocc m (Nat.le_refl m) hlt2
        rw [hstep, hm]
        simp only [if_true]
        exact ih (m + 1) n hlt2 (by omega)
          (fun j hj1 hj2 => hocc j (by omega) hj2) hfree

/-- Claim C7: under the Suffix strategy an occupied desired path is
resolved by probing the numbered candidates in order of n, each
formed by inserting the marker immediately before the extension (or
appending it to the stem when there is none), and the first free
candidate is returned; concretely an existing x.txt resolves to
x (1).txt, and to x (2).txt when x (1).txt exists too. -/
theorem c7_suffix_resolution :
    (∀ (fs : FS) (desired orig : Path) (fuel n : Nat),
        fsExists fs desired = true → 1 ≤ n → n - 1 < fuel →
        (∀ j, 1 ≤ j → j < n → fsExists fs (sfxCand desired j) = true) →
        fsExists fs (sfxCand desired n) = false →
        resolveCollision fs CollisionStrategy.Suffix fuel orig desired =
          some (sfxCand desired n) ∧
        sfxCand desired n = ⟨desired.dir, sfxNameSpec desired.name n⟩) ∧
    resolveCollision c7_fs1 CollisionStrategy.Suffix 9 c7_orig ⟨"d", "x.txt"⟩ =
      some ⟨"d", "x (1).txt"⟩ ∧
    resolveCollision c7_fs2 CollisionStrategy.Suffix 9 c7_orig ⟨"d", "x.txt"⟩ =
      some ⟨"d", "x (2).txt"⟩ := by
  refine ⟨?_, by decide, by decide⟩
  intro fs desired orig fuel n hex hn hfuel hocc hfree
  refine ⟨?_, sfxCand_eq_spec desired n⟩
  rw [resolveCollision, if_pos hex]
  exact suffixProbe_finds fs desired fuel 1 n hn hfuel hocc hfree

/-- Witness for claim C7's general statement: in a directory holding
x.txt and x (1).txt, the Suffix strategy resolves a second x.txt to
x (2).txt, the first free candidate. -/
theorem c7_suffix_resolution_witness :
    resolveCollision c7_fs2 CollisionStrategy.Suffix 9 c7_orig ⟨"d", "x.txt"⟩ =
      some (sfxCand ⟨"d", "x.txt"⟩ 2) ∧
    sfxCand ⟨"d", "x.txt"⟩ 2 = ⟨"d", sfxNameSpec "x.txt" 2⟩ :=
  c7_suffix_resolution.1 c7_fs2 ⟨"d", "x.txt"⟩ c7_orig 9 2 (by decide)
    (by decide) (by decide)
    (fun j hj1 hj2 => by
      have : j = 1 := by omega
      subst this
      decide)
    (by decide)

theorem planBatch_no_noop (fs : FS) (collision : CollisionStrategy)
    (fuel : Nat) (nanosAt : Nat → Nat) :
    ∀ (pairs : List (Path × Path)) (i : Nat) (rm : List Entry),
      planBatch fs collision fuel nanosAt i pairs = some rm →
      ∀ e ∈ rm, e.final ≠ e.origin := by
  intro pairs
  induction pairs with
  | nil =>
      intro i rm hp e he
      simp only [planBatch, Option.some.injEq] at hp
      subst hp
      simp at he
  | cons pr rest ih =>
      intro i rm hp e he
      rw [planBatch] at hp
      cases hres : resolveCollision fs collision fuel pr.1 pr.2 with
      | none => rw [hres] at hp; exact absurd hp (by simp)
      | some desired =>
          rw [hres] at hp
          cases hrec : planBatch fs collision fuel nanosAt (i + 1) rest with
          | none => rw [hrec] at hp; exact absurd hp (by simp)
          | some entries =>
              rw [hrec] at hp
              dsimp only at hp
              by_cases hd : desired = pr.1
              · rw [if_pos hd] at hp
                injection hp with hpe
                subst hpe
                exact ih (i + 1) _ hrec e he
              · rw [if_neg hd] at hp
                injection hp with hpe
                subst hpe
                rcases List.mem_cons.mp he with hhead | htail
                · subst hhead
                  exact hd
                · exact ih (i + 1) _ hrec e htail

/-- Claim C9: the planner excludes every entry whose resolved final
path equals its origin; and when the whole planned batch is empty,
execute_rename only reports the benign nothing-to-do message: the
filesystem value is returned untouched, no rename syscall is traced,
and no undo entry is pushed. -/
theorem c9_noop_filtering :
    (∀ (fs : FS) (collision : CollisionStrategy) (fuel : Nat)
        (nanosAt : Nat → Nat) (i : Nat) (pairs : List (Path × Path))
        (rm : List Entry),
        planBatch fs collision fuel nanosAt i pairs = some rm →
        ∀ e ∈ rm, e.final ≠ e.origin) ∧
    (∀ (st : AppState) (fs : FS) (env : Env),
        plannedBatch st fs env = some [] →
        execute_rename st fs env =
          some ⟨{ st with messages :=
                    st.messages ++ ["No files to rename (all skipped or no files)."] },
                fs, []⟩) := by
  constructor
  · intro fs collision fuel nanosAt i pairs rm hp
    exact planBatch_no_noop fs collision fuel nanosAt pairs i rm hp
  · intro st fs env hplan
    have hg : ¬ ((generate_targets st env.fmtDate env.clock).length ≠ st.files.length) := by
      rw [generate_targets]
      exact fun hne => hne (generate_go_length st.blocks env.fmtDate env.clock 0 st.files)
    rw [execute_rename]
    dsimp only
    rw [if_neg hg, hplan]
    rfl

/-- Witness for claim C9: a single file named by its own stem under
the Skip strategy plans to the empty batch, and execute_rename
reports nothing to do, touching nothing. -/
theorem c9_noop_filtering_witness :
    execute_rename c9_st c9_fs c9_env =
      some ⟨{ c9_st with messages :=
                c9_st.messages ++ ["No files to rename (all skipped or no files)."] },
            c9_fs, []⟩ :=
  c9_noop_filtering.2 c9_st c9_fs c9_env (by decide)

/-! Phase-1 machinery: staging, rollback and their effect on the
filesystem. -/

theorem fsRename_some {fs : FS} {src : Path} {v : Nat} (h : fs src = some v)
    (dst : Path) :
    fsRename fs src dst =
      some (fun p => if p = dst then some v else if p = src then none else fs p) := by
  unfold fsRename
  rw [h]

theorem planOk_head {fs : FS} {e : Entry} {rm : List Entry}
    (h : PlanOk fs (e :: rm)) :
    ∃ v, fs e.origin = some v ∧ fs e.temp = none := by
  obtain ⟨hS, hN⟩ := h.2 e (List.mem_cons_self e rm)
  obtain ⟨v, hv⟩ := Option.isSome_iff_exists.mp hS
  exact ⟨v, hv, hN⟩

theorem planOk_step {fs : FS} {e : Entry} {rm : List Entry} {v : Nat}
    (h : PlanOk fs (e :: rm)) (_hv : fs e.origin = some v) :
    PlanOk (fun p => if p = e.temp then some v else if p = e.origin then none else fs p)
      rm := by
  obtain ⟨hpw, hmem⟩ := h
  obtain ⟨hhead, htail⟩ := List.pairwise_cons.mp hpw
  refine ⟨htail, ?_⟩
  intro e2 he2
  obtain ⟨h2S, h2N⟩ := hmem e2 (List.mem_cons_of_mem e he2)
  obtain ⟨ho, ht⟩ := hhead e2 he2
  constructor
  · dsimp only
    by_cases hc1 : e2.origin = e.temp
    · rw [if_pos hc1]; rfl
    · rw [if_neg hc1, if_neg (fun hc2 => ho hc2.symm)]
      exact h2S
  · dsimp only
    have hc1 : e2.temp ≠ e.temp := fun hc => ht hc.symm
    rw [if_neg hc1]
    by_cases hc2 : e2.temp = e.origin
    · rw [if_pos hc2]
    · rw [if_neg hc2]; exact h2N

theorem stageAll_cons {fs fs2 : FS} {e : Entry} (l : List Entry)
    (hr : fsRename fs e.origin e.temp = some fs2) :
    stageAll fs (e :: l) = stageAll fs2 l := by
  simp only [stageAll, List.foldl_cons, hr]

theorem phase1_cons_ok {err : Nat → Bool} {fs fs2 : FS} {k : Nat} {e : Entry}
    (l : List Entry) (temps : List (Path × Path)) (tr : List Evt)
    (he : err k = false) (hr : fsRename fs e.origin e.temp = some fs2) :
    phase1 err fs k (e :: l) temps tr =
      phase1 err fs2 (k + 1) l (temps ++ [(e.temp, e.origin)])
        (tr ++ [⟨Tag.stage, e.origin, e.temp, true⟩]) := by
  simp only [phase1, he, hr]
  rfl

theorem phase1_cons_fail {err : Nat → Bool} {fs : FS} {k : Nat} {e : Entry}
    (l : List Entry) (temps : List (Path × Path)) (tr : List Evt)
    (he : err k = true) :
    phase1 err fs k (e :: l) temps tr =
      P1Res.fail
        (rollbackP1 fs temps (tr ++ [⟨Tag.stage, e.origin, e.temp, false⟩])).1
        (rollbackP1 fs temps (tr ++ [⟨Tag.stage, e.origin, e.temp, false⟩])).2
        ("Failed to move " ++ pathStr e.origin ++ " -> " ++ pathStr e.temp) := by
  simp only [phase1, he]
  rfl

theorem phase1_early_entries (err : Nat → Bool) :
    ∀ (pre : List Entry) (rest : List Entry) (fs : FS) (k0 : Nat)
      (temps : List (Path × Path)) (tr : List Evt),
      PlanOk fs pre →
      (∀ j, j < pre.length → err (k0 + j) = false) →
      phase1 err fs k0 (pre ++ rest) temps tr =
        phase1 err (stageAll fs pre) (k0 + pre.length) rest
          (temps ++ pre.map (fun e => (e.temp, e.origin)))
          (tr ++ pre.map (fun e => ⟨Tag.stage, e.origin, e.temp, true⟩)) := by
  intro pre
  induction pre with
  | nil =>
      intro rest fs k0 temps tr _ _
      simp [stageAll]
  | cons e pre2 ih =>
      intro rest fs k0 temps tr hok herr
      obtain ⟨v, hv, htN⟩ := planOk_head hok
      have hr := fsRename_some hv e.temp
      have he0 : err k0 = false := by
        have := herr 0 (by simp)
        simpa using this
      rw [List.cons_append, phase1_cons_ok (pre2 ++ rest) temps tr he0 hr,
        stageAll_cons pre2 hr]
      rw [ih rest _ (k0 + 1) _ _ (planOk_step hok hv)
        (fun j hj => by
          have := herr (j + 1) (by simpa using Nat.succ_lt_succ hj)
          rwa [show k0 + (j + 1) = k0 + 1 + j by omega] at this)]
      have harith : k0 + 1 + pre2.length = k0 + (pre2.length + 1) := by omega
      rw [harith]
      simp [List.append_assoc, List.length_cons]

theorem rollbackP1_cons (fs : FS) (a : Path × Path) (l : List (Path × Path))
    (tr : List Evt) :
    rollbackP1 fs (a :: l) tr =
      (match fsRename (rollbackP1 fs l tr).1 a.1 a.2 with
       | some f2 => (f2, (rollbackP1 fs l tr).2 ++ [⟨Tag.unstageP1, a.1, a.2, true⟩])
       | none => ((rollbackP1 fs l tr).1,
           (rollbackP1 fs l tr).2 ++ [⟨Tag.unstageP1, a.1, a.2, false⟩])) := by
  simp only [rollbackP1, List.reverse_cons, List.foldl_append, List.foldl_cons,
    List.foldl_nil]

theorem rollbackP1_unwinds :
    ∀ (pre : List Entry) (fs : FS) (tr : List Evt),
      PlanOk fs pre →
      FSeq (rollbackP1 (stageAll fs pre)
          (pre.map (fun e => (e.temp, e.origin))) tr).1 fs ∧
      (rollbackP1 (stageAll fs pre)
          (pre.map (fun e => (e.temp, e.origin))) tr).2 =
        tr ++ (pre.reverse).map (fun e => ⟨Tag.unstageP1, e.temp, e.origin, true⟩) := by
  intro pre
  induction pre with
  | nil =>
      intro fs tr _
      exact ⟨FSeq.refl fs, by simp [rollbackP1, stageAll]⟩
  | cons e pre2 ih =>
      intro fs tr hok
      obtain ⟨v, hv, htN⟩ := planOk_head hok
      have hr := fsRename_some hv e.temp
      rw [List.map_cons, stageAll_cons pre2 hr, rollbackP1_cons]
      obtain ⟨hP1, hP2⟩ := ih _ tr (planOk_step hok hv)
      have hPt : (rollbackP1
          (stageAll (fun p => if p = e.temp then some v
            else if p = e.origin then none else fs p) pre2)
          (pre2.map (fun e2 => (e2.temp, e2.origin))) tr).1 e.temp = some v := by
        rw [hP1 e.temp]
        simp
      have hr2 := fsRename_some hPt e.origin
      rw [hr2]
      constructor
      · intro p
        by_cases hc1 : p = e.origin
        · subst hc1
          simp [hv]
        · by_cases hc2 : p = e.temp
          · subst hc2
            simp only [if_neg hc1, if_pos rfl]
            exact htN.symm
          · simp only [if_neg hc1, if_neg hc2]
            rw [hP1 p]
            simp [if_neg hc2, if_neg hc1]
      · rw [hP2]
        simp [List.reverse_cons, List.map_append, List.append_assoc]

theorem planOk_take {fs : FS} {rm : List Entry} (h : PlanOk fs rm) (k : Nat) :
    PlanOk fs (rm.take k) :=
  ⟨h.1.sublist (List.take_sublist k rm),
   fun e he => h.2 e (List.take_subset k rm he)⟩

theorem execute_rename_eq (st : AppState) (fs : FS) (env : Env)
    (rm : List Entry) (hplan : plannedBatch st fs env = some rm)
    (hne : rm ≠ []) :
    execute_rename st fs env =
      (match phase1 env.err1 fs 0 rm [] [] with
       | P1Res.fail fs1 tr msg =>
           some ⟨{ st with messages :=
                     st.messages ++ [msg, "Performed rollback after failure."] },
                 fs1, tr⟩
       | P1Res.ok fs1 temps tr =>
           match phase2 env.err2 temps fs1 0 rm tr with
           | P2Res.fail fs2 tr2 msg =>
               some ⟨{ st with messages :=
                         st.messages ++
                           [msg, "Attempted rollback after partial failure."] },
                     fs2, tr2⟩
           | P2Res.ok fs2 tr2 =>
               some ⟨{ st with
                         last_actions :=
                           (rm.foldl (fun m e => hmInsert m e.origin e.final) []) ::
                             st.last_actions,
                         messages := st.messages ++ ["Rename completed successfully."] },
                     fs2, tr2⟩) := by
  have hg : ¬ ((generate_targets st env.fmtDate env.clock).length ≠ st.files.length) := by
    rw [generate_targets]
    exact fun hne2 => hne2 (generate_go_length st.blocks env.fmtDate env.clock 0 st.files)
  rw [execute_rename]
  dsimp only
  rw [if_neg hg, hplan]
  have hie : rm.isEmpty = false := by
    cases rm with
    | nil => exact absurd rfl hne
    | cons a l => rfl
  dsimp only
  rw [hie]
  rfl

/-- Claim C2: when the phase-1 staging rename of entry k is the first
to fail, execute_rename renames every already-staged temp back to its
origin in reverse order of staging (visible in the syscall trace),
never attempts a phase-2 commit (no commit event is traced), reports
the failing origin-temp pair followed by the rollback notice, pushes
no undo entry, and leaves every path of the filesystem exactly as
before the call; in particular entries 0..k-1 are back at their
origins and no temp file remains. -/
theorem c2_phase1_failure_rollback (st : AppState) (fs : FS) (env : Env)
    (rm : List Entry) (k : Nat)
    (hplan : plannedBatch st fs env = some rm)
    (hok : PlanOk fs rm)
    (hk : k < rm.length)
    (herrlt : ∀ j, j < k → env.err1 j = false)
    (herrk : env.err1 k = true) :
    ∃ out, execute_rename st fs env = some out ∧
      out.st.last_actions = st.last_actions ∧
      out.st.messages = st.messages ++
        ["Failed to move " ++ pathStr (rm.get ⟨k, hk⟩).origin ++ " -> " ++
           pathStr (rm.get ⟨k, hk⟩).temp,
         "Performed rollback after failure."] ∧
      FSeq out.fs fs ∧
      (∀ e ∈ rm, out.fs e.origin = fs e.origin ∧ out.fs e.temp = none) ∧
      out.trace =
        (rm.take k).map (fun e => ⟨Tag.stage, e.origin, e.temp, true⟩) ++
          [⟨Tag.stage, (rm.get ⟨k, hk⟩).origin, (rm.get ⟨k, hk⟩).temp, false⟩] ++
          ((rm.take k).reverse).map
            (fun e => ⟨Tag.unstageP1, e.temp, e.origin, true⟩) := by
  have hne : rm ≠ [] := by
    intro h0
    rw [h0] at hk
    exact absurd hk (by simp)
  have hdecomp : rm = rm.take k ++ rm.get ⟨k, hk⟩ :: rm.drop (k + 1) := by
    conv_lhs => rw [← List.take_append_drop k rm]
    congr 1
    rw [List.get_eq_getElem]
    exact (List.getElem_cons_drop rm k hk).symm
  have hlen_take : (rm.take k).length = k := by
    rw [List.length_take]
    omega
  have hokpre : PlanOk fs (rm.take k) := planOk_take hok k
  have hp1 : phase1 env.err1 fs 0 rm [] [] =
      phase1 env.err1 (stageAll fs (rm.take k)) (0 + (rm.take k).length)
        (rm.get ⟨k, hk⟩ :: rm.drop (k + 1))
        ([] ++ (rm.take k).map (fun e => (e.temp, e.origin)))
        ([] ++ (rm.take k).map (fun e => ⟨Tag.stage, e.origin, e.temp, true⟩)) := by
    conv_lhs => rw [hdecomp]
    exact phase1_early_entries env.err1 (rm.take k) _ fs 0 [] []
      hokpre (fun j hj => by
        rw [Nat.zero_add]
        exact herrlt j (by rwa [hlen_take] at hj))
  rw [Nat.zero_add, hlen_take, List.nil_append, List.nil_append] at hp1
  rw [phase1_cons_fail _ _ _ herrk] at hp1
  obtain ⟨hR1, hR2⟩ := rollbackP1_unwinds (rm.take k) fs
    ((rm.take k).map (fun e => ⟨Tag.stage, e.origin, e.temp, true⟩) ++
      [⟨Tag.stage, (rm.get ⟨k, hk⟩).origin, (rm.get ⟨k, hk⟩).temp, false⟩])
    hokpre
  refine ⟨⟨{ st with messages := st.messages ++
      ["Failed to move " ++ pathStr (rm.get ⟨k, hk⟩).origin ++ " -> " ++
         pathStr (rm.get ⟨k, hk⟩).temp,
       "Performed rollback after failure."] },
    (rollbackP1 (stageAll fs (rm.take k))
        ((rm.take k).map (fun e => (e.temp, e.origin)))
        ((rm.take k).map (fun e => ⟨Tag.stage, e.origin, e.temp, true⟩) ++
          [⟨Tag.stage, (rm.get ⟨k, hk⟩).origin, (rm.get ⟨k, hk⟩).temp, false⟩])).1,
    (rollbackP1 (stageAll fs (rm.take k))
        ((rm.take k).map (fun e => (e.temp, e.origin)))
        ((rm.take k).map (fun e => ⟨Tag.stage, e.origin, e.temp, true⟩) ++
          [⟨Tag.stage, (rm.get ⟨k, hk⟩).origin, (rm.get ⟨k, hk⟩).temp, false⟩])).2⟩,
    ?_, ?_, ?_, ?_, ?_, ?_⟩
  · rw [execute_rename_eq st fs env rm hplan hne, hp1]
  · simp
  · simp
  · exact hR1
  · intro e he
    obtain ⟨heS, heN⟩ := hok.2 e he
    exact ⟨hR1 e.origin, (hR1 e.temp).trans heN⟩
  · dsimp only
    rw [hR2]

/-- Witness for claim C2: with the OS failing the staging rename of
entry 1 of the two-entry demo batch, execute_rename pushes nothing
and the filesystem is pointwise what it was. -/
theorem c2_phase1_failure_rollback_witness :
    ∃ out, execute_rename demo_st demo_fs c2_env = some out ∧
      out.st.last_actions = demo_st.last_actions ∧ FSeq out.fs demo_fs := by
  obtain ⟨out, h1, h2, h3, h4, h5, h6⟩ :=
    c2_phase1_failure_rollback demo_st demo_fs c2_env demo_rm 1
      (by decide) (by decide) (by decide)
      (fun j hj => by
        have hj0 : j = 0 := by omega
        subst hj0
        rfl)
      (by rfl)
  exact ⟨out, h1, h2, h4⟩

/-- Claim C1, checked on the code at a failing input: in the demo
batch both entries stage, entry 0 commits (a.x now lives at na.x),
and the commit of entry 1 fails.  The source's final_mappings map is
created empty and never filled (main.rs 319), so the rollback loop
over it reverts no committed entry: the run ends with na.x still
holding file 1 and a.x absent, while the claim (and the spec's
intent, visible in that dead rollback loop) requires a.x to be
restored.  Only the staged-but-uncommitted entry 1 is rolled back to
b.y. -/
theorem c1_phase2_failure_keeps_committed_entries :
    ((execute_rename demo_st demo_fs c1_env).map (fun r =>
        [r.fs ⟨"d", "na.x"⟩, r.fs ⟨"d", "a.x"⟩, r.fs ⟨"d", "b.y"⟩,
         r.fs ⟨"d", "nb.y"⟩, r.fs ⟨"d", ".tmp-7-0.tmp"⟩,
         r.fs ⟨"d", ".tmp-7-1.tmp"⟩])) =
      some [some 1, none, some 2, none, none, none] ∧
    ((execute_rename demo_st demo_fs c1_env).map (fun r => r.st.last_actions)) =
      some [] ∧
    ((execute_rename demo_st demo_fs c1_env).map (fun r => r.st.messages)) =
      some ["Failed to move temp d/.tmp-7-1.tmp -> final d/nb.y",
            "Attempted rollback after partial failure."] ∧
    demo_fs ⟨"d", "a.x"⟩ = some 1 ∧ demo_fs ⟨"d", "na.x"⟩ = none := by
  refine ⟨by decide, by decide, by decide, by decide, by decide⟩

/-! Phase-2 and undo machinery. -/

theorem find?_key_self (key : Entry → Path) :
    ∀ (rm : List Entry), rm.Pairwise (fun a b => key a ≠ key b) →
      ∀ e ∈ rm, rm.find? (fun x => key x = key e) = some e := by
  intro rm
  induction rm with
  | nil => intro _ e he; simp at he
  | cons a l ih =>
      intro hpw e he
      obtain ⟨ha, hl⟩ := List.pairwise_cons.mp hpw
      rcases List.mem_cons.mp he with heq | hmem
      · subst heq
        rw [List.find?_cons_of_pos]
        simp
      · rw [List.find?_cons_of_neg]
        · exact ih hl e hmem
        · simp [ha e hmem]

theorem stageAll_eq_stagedFS :
    ∀ (rm : List Entry) (fs : FS), PlanOk fs rm →
      FSeq (stageAll fs rm) (stagedFS fs rm) := by
  intro rm
  induction rm with
  | nil =>
      intro fs _ p
      simp [stageAll, stagedFS]
  | cons e l ih =>
      intro fs hok p
      obtain ⟨v, hv, htN⟩ := planOk_head hok
      have hne_to : e.origin ≠ e.temp := by
        intro hc
        rw [hc, htN] at hv
        exact Option.noConfusion hv
      have hr := fsRename_some hv e.temp
      have hhead := (List.pairwise_cons.mp hok.1).1
      have hmem := hok.2
      rw [stageAll_cons l hr, ih _ (planOk_step hok hv) p]
      show stagedFS _ l p = stagedFS fs (e :: l) p
      unfold stagedFS
      cases hf : l.find? (fun x => x.temp = p) with
      | some x =>
          have hx_mem := List.mem_of_find?_eq_some hf
          have hx_p : x.temp = p := by
            have := List.find?_some hf
            simpa using this
          have hne1 : ¬ (e.temp = p) := by
            rw [← hx_p]
            exact (hhead x hx_mem).2
          rw [List.find?_cons_of_neg _ (by simpa using hne1), hf]
          dsimp only
          obtain ⟨hxS, hxN⟩ := hmem x (List.mem_cons_of_mem e hx_mem)
          have hno1 : x.origin ≠ e.temp := by
            intro hc
            rw [hc, htN] at hxS
            exact Bool.noConfusion hxS
          have hno2 : x.origin ≠ e.origin := fun hc => (hhead x hx_mem).1 hc.symm
          rw [if_neg hno1, if_neg hno2]
      | none =>
          by_cases hp_et : e.temp = p
          · rw [List.find?_cons_of_pos _ (by simpa using hp_et)]
            dsimp only
            have hany : (l.any fun x => decide (x.origin = p)) = false := by
              rw [List.any_eq_false]
              intro x hx
              obtain ⟨hxS, _⟩ := hmem x (List.mem_cons_of_mem e hx)
              simp only [decide_eq_true_eq]
              intro hc
              rw [← hp_et] at hc
              rw [hc, htN] at hxS
              exact Bool.noConfusion hxS
            rw [hany]
            simp [← hp_et, hv]
          · rw [List.find?_cons_of_neg _ (by simpa using hp_et), hf]
            dsimp only
            by_cases hp_eo : e.origin = p
            · have hany2 : (decide (e.origin = p) || l.any fun x => decide (x.origin = p)) = true := by
                simp [hp_eo]
              rw [List.any_cons, hany2]
              cases hany : (l.any fun x => decide (x.origin = p)) with
              | true => rfl
              | false =>
                  rw [if_neg (show ¬ p = e.temp from fun hc => hp_et hc.symm),
                    if_pos (show p = e.origin from hp_eo.symm)]
                  rfl
            · rw [List.any_cons]
              have hdec : decide (e.origin = p) = false := by simp [hp_eo]
              rw [hdec, Bool.false_or]
              cases hany : (l.any fun x => decide (x.origin = p)) with
              | true => rfl
              | false =>
                  rw [if_neg (show ¬ p = e.temp from fun hc => hp_et hc.symm),
                    if_neg (show ¬ p = e.origin from fun hc => hp_eo hc.symm)]

theorem phase2_cons_ok (temps : List (Path × Path)) {err : Nat → Bool}
    {fs fs2 : FS} {j : Nat} {e : Entry} (l : List Entry) (tr : List Evt)
    (he : err j = false) (hr : fsRename fs e.temp e.final = some fs2) :
    phase2 err temps fs j (e :: l) tr =
      phase2 err temps fs2 (j + 1) l (tr ++ [⟨Tag.commit, e.temp, e.final, true⟩]) := by
  simp only [phase2, he, hr]
  rfl

theorem commitFS_cons (fs S : FS) (e : Entry) (rm2 : List Entry) (v : Nat)
    (hv : fs e.origin = some v)
    (hfinpw : ∀ x ∈ rm2, e.final ≠ x.final)
    (hfin_t : ∀ x ∈ rm2, e.final ≠ x.temp)
    (htemps : ∀ x ∈ rm2, x.temp ≠ e.temp) :
    FSeq
      (commitFS fs
        (fun p => if p = e.final then some v else if p = e.temp then none else S p)
        rm2)
      (commitFS fs S (e :: rm2)) := by
  intro p
  unfold commitFS
  cases hf : rm2.find? (fun x => x.final = p) with
  | some x =>
      have hx_mem := List.mem_of_find?_eq_some hf
      have hx_p : x.final = p := by
        have := List.find?_some hf
        simpa using this
      have hne1 : ¬ (e.final = p) := by
        rw [← hx_p]
        exact hfinpw x hx_mem
      rw [List.find?_cons_of_neg _ (by simpa using hne1), hf]
  | none =>
      by_cases hp_f : e.final = p
      · rw [List.find?_cons_of_pos _ (by simpa using hp_f)]
        dsimp only
        have hany : (rm2.any fun x => decide (x.temp = p)) = false := by
          rw [List.any_eq_false]
          intro x hx
          simp only [decide_eq_true_eq]
          intro hc
          exact hfin_t x hx (hp_f.trans hc.symm)
        rw [hany]
        simp [← hp_f, hv]
      · rw [List.find?_cons_of_neg _ (by simpa using hp_f), hf]
        dsimp only
        rw [List.any_cons]
        by_cases hp_t : e.temp = p
        · have hany : (rm2.any fun x => decide (x.temp = p)) = false := by
            rw [List.any_eq_false]
            intro x hx
            simp only [decide_eq_true_eq]
            intro hc
            exact htemps x hx (hc.trans hp_t.symm)
          rw [hany]
          have hdec : decide (e.temp = p) = true := by simp [hp_t]
          rw [hdec]
          simp only [Bool.true_or, if_true]
          rw [if_neg (show ¬ p = e.final from fun hc => hp_f hc.symm),
            if_pos (show p = e.temp from hp_t.symm)]
          rfl
        · have hdec : decide (e.temp = p) = false := by simp [hp_t]
          rw [hdec, Bool.false_or]
          cases hany : (rm2.any fun x => decide (x.temp = p)) with
          | true => rfl
          | false =>
              rw [if_neg (show ¬ p = e.final from fun hc => hp_f hc.symm),
                if_neg (show ¬ p = e.temp from fun hc => hp_t hc.symm)]

theorem phase2_all_ok (err : Nat → Bool) (temps : List (Path × Path)) (fs : FS)
    (herr : ∀ i, err i = false) :
    ∀ (rm : List Entry) (S : FS) (j : Nat) (tr : List Evt),
      (∀ e ∈ rm, S e.temp = fs e.origin ∧ (fs e.origin).isSome) →
      rm.Pairwise (fun a b => a.temp ≠ b.temp) →
      rm.Pairwise (fun a b => a.final ≠ b.final) →
      (∀ e ∈ rm, ∀ e2 ∈ rm, e.final ≠ e2.temp) →
      ∃ F, phase2 err temps S j rm tr =
          P2Res.ok F (tr ++ rm.map (fun e => ⟨Tag.commit, e.temp, e.final, true⟩)) ∧
        FSeq F (commitFS fs S rm) := by
  intro rm
  induction rm with
  | nil =>
      intro S j tr _ _ _ _
      refine ⟨S, by simp [phase2], fun p => ?_⟩
      simp [commitFS]
  | cons e rm2 ih =>
      intro S j tr hmem hpt hpf hft
      obtain ⟨hSt, hOS⟩ := hmem e (List.mem_cons_self e rm2)
      obtain ⟨v, hv⟩ := Option.isSome_iff_exists.mp hOS
      have hSv : S e.temp = some v := hSt.trans hv
      have hr := fsRename_some hSv e.final
      rw [phase2_cons_ok temps rm2 tr (herr j) hr]
      obtain ⟨hpt_head, hpt_tail⟩ := List.pairwise_cons.mp hpt
      obtain ⟨hpf_head, hpf_tail⟩ := List.pairwise_cons.mp hpf
      obtain ⟨F, hF1, hF2⟩ := ih
        (fun p => if p = e.final then some v else if p = e.temp then none else S p)
        (j + 1) (tr ++ [⟨Tag.commit, e.temp, e.final, true⟩])
        (fun x hx => by
          obtain ⟨hxS, hxO⟩ := hmem x (List.mem_cons_of_mem e hx)
          refine ⟨?_, hxO⟩
          dsimp only
          rw [if_neg (show ¬ x.temp = e.final from
                fun hc => hft e (List.mem_cons_self e rm2) x
                  (List.mem_cons_of_mem e hx) hc.symm),
            if_neg (show ¬ x.temp = e.temp from
                fun hc => hpt_head x hx hc.symm)]
          exact hxS)
        hpt_tail hpf_tail
        (fun x hx y hy =>
          hft x (List.mem_cons_of_mem e hx) y (List.mem_cons_of_mem e hy))
      refine ⟨F, ?_, ?_⟩
      · rw [hF1]
        simp [List.append_assoc]
      · intro p
        refine (hF2 p).trans ?_
        exact commitFS_cons fs S e rm2 v hv hpf_head
          (fun x hx => hft e (List.mem_cons_self e rm2) x (List.mem_cons_of_mem e hx))
          (fun x hx hc => hpt_head x hx hc.symm) p

theorem commitFS_congr (fs : FS) {S S2 : FS} (rm : List Entry) (h : FSeq S S2) :
    FSeq (commitFS fs S rm) (commitFS fs S2 rm) := by
  intro p
  unfold commitFS
  cases hf : rm.find? (fun x => x.final = p) with
  | some x => rfl
  | none =>
      cases hany : (rm.any fun x => decide (x.temp = p)) with
      | true => rfl
      | false => exact h p

theorem commitFS_staged (fs : FS) (rm : List Entry) :
    FSeq (commitFS fs (stagedFS fs rm) rm) (applyBatch fs rm) := by
  intro p
  unfold commitFS applyBatch
  cases hf : rm.find? (fun x => x.final = p) with
  | some x => rfl
  | none =>
      cases hany : (rm.any fun x => decide (x.temp = p)) with
      | true =>
          have hor : (rm.any fun x => decide (x.origin = p) || decide (x.temp = p)) = true := by
            rw [List.any_eq_true] at hany ⊢
            obtain ⟨x, hx, hxp⟩ := hany
            exact ⟨x, hx, by simp [hxp]⟩
          rw [hor]
          rfl
      | false =>
          unfold stagedFS
          have hfind_t : rm.find? (fun x => x.temp = p) = none := by
            rw [List.find?_eq_none]
            intro x hx
            have := (List.any_eq_false.mp hany) x hx
            simpa using this
          rw [hfind_t]
          cases hao : (rm.any fun x => decide (x.origin = p)) with
          | true =>
              have hor : (rm.any fun x => decide (x.origin = p) || decide (x.temp = p)) = true := by
                rw [List.any_eq_true] at hao ⊢
                obtain ⟨x, hx, hxp⟩ := hao
                exact ⟨x, hx, by simp [hxp]⟩
              rw [hor]
              rfl
          | false =>
              have hor : (rm.any fun x => decide (x.origin = p) || decide (x.temp = p)) = false := by
                rw [List.any_eq_false]
                intro x hx
                have h1 := (List.any_eq_false.mp hao) x hx
                have h2 := (List.any_eq_false.mp hany) x hx
                simp only [Bool.or_eq_true]
                rintro (hc | hc)
                · exact h1 hc
                · exact h2 hc
              rw [hor]
              rfl

theorem fullPlanOk_tail {fs : FS} {e : Entry} {rm : List Entry}
    (h : FullPlanOk fs (e :: rm)) : FullPlanOk fs rm := by
  obtain ⟨⟨hpw, hmem⟩, hpf, hcross, hfresh⟩ := h
  exact ⟨⟨(List.pairwise_cons.mp hpw).2,
      fun x hx => hmem x (List.mem_cons_of_mem e hx)⟩,
    (List.pairwise_cons.mp hpf).2,
    fun x hx y hy =>
      hcross x (List.mem_cons_of_mem e hx) y (List.mem_cons_of_mem e hy),
    fun x hx => hfresh x (List.mem_cons_of_mem e hx)⟩

theorem hmInsert_foldl_eq_map :
    ∀ (rm : List Entry) (acc : List (Path × Path)),
      (∀ kv ∈ acc, ∀ x ∈ rm, kv.1 ≠ x.origin) →
      rm.Pairwise (fun a b => a.origin ≠ b.origin) →
      rm.foldl (fun m e => hmInsert m e.origin e.final) acc =
        acc ++ rm.map (fun e => (e.origin, e.final)) := by
  intro rm
  induction rm with
  | nil => intro acc _ _; simp
  | cons e l ih =>
      intro acc hacc hpw
      rw [List.foldl_cons]
      have hfilt : hmInsert acc e.origin e.final = acc ++ [(e.origin, e.final)] := by
        unfold hmInsert
        congr 1
        rw [List.filter_eq_self]
        intro kv hkv
        simpa using hacc kv hkv e (List.mem_cons_self e l)
      rw [hfilt,
        ih (acc ++ [(e.origin, e.final)])
          (fun kv hkv x hx => by
            rcases List.mem_append.mp hkv with h1 | h2
            · exact hacc kv h1 x (List.mem_cons_of_mem e hx)
            · have : kv = (e.origin, e.final) := by simpa using h2
              rw [this]
              exact (List.pairwise_cons.mp hpw).1 x hx)
          (List.pairwise_cons.mp hpw).2]
      simp

theorem undo_fold_restores (fs : FS) :
    ∀ (rm : List Entry) (G : FS) (msgs : List String),
      FSeq G (applyBatch fs rm) →
      FullPlanOk fs rm →
      ((rm.map (fun e => (e.origin, e.final))).foldl undoStep (G, msgs)).2 = msgs ∧
      FSeq ((rm.map (fun e => (e.origin, e.final))).foldl undoStep (G, msgs)).1 fs := by
  intro rm
  induction rm with
  | nil =>
      intro G msgs hG _
      refine ⟨rfl, fun p => ?_⟩
      have := hG p
      simpa [applyBatch] using this
  | cons e l ih =>
      intro G msgs hG hfull
      obtain ⟨⟨hpw, hmem⟩, hpf, hcross, hfresh⟩ := hfull
      obtain ⟨hOS, htN⟩ := hmem e (List.mem_cons_self e l)
      obtain ⟨v, hv⟩ := Option.isSome_iff_exists.mp hOS
      have hGf : G e.final = some v := by
        rw [hG e.final]
        unfold applyBatch
        rw [List.find?_cons_of_pos _ (by simp)]
        exact hv
      rw [List.map_cons, List.foldl_cons]
      have hex : fsExists G e.final = true := by
        rw [fsExists, hGf]
        rfl
      have hstep : undoStep (G, msgs) (e.origin, e.final) =
          ((fun p => if p = e.origin then some v
             else if p = e.final then none else G p), msgs) := by
        unfold undoStep
        rw [hex]
        simp only [if_true]
        rw [fsRename_some hGf e.origin]
      rw [hstep]
      apply ih
      · intro p
        dsimp only
        by_cases hp_o : p = e.origin
        · rw [if_pos hp_o]
          unfold applyBatch
          have hfind : l.find? (fun x => x.final = p) = none := by
            rw [List.find?_eq_none]
            intro x hx
            simp only [decide_eq_true_eq]
            intro hc
            exact (hcross x (List.mem_cons_of_mem e hx) e
              (List.mem_cons_self e l)).1 (hc.trans hp_o)
          rw [hfind]
          have hany : (l.any fun x => decide (x.origin = p) || decide (x.temp = p)) = false := by
            rw [List.any_eq_false]
            intro x hx
            simp only [Bool.or_eq_true, decide_eq_true_eq]
            rintro (hc | hc)
            · exact ((List.pairwise_cons.mp hpw).1 x hx).1 (hc.trans hp_o).symm
            · have hxt := (hmem x (List.mem_cons_of_mem e hx)).2
              rw [hc, hp_o, hv] at hxt
              exact Option.noConfusion hxt
          rw [hany]
          rw [hp_o, hv]
          rfl
        · by_cases hp_f : p = e.final
          · rw [if_neg hp_o, if_pos hp_f]
            unfold applyBatch
            have hfind : l.find? (fun x => x.final = p) = none := by
              rw [List.find?_eq_none]
              intro x hx
              simp only [decide_eq_true_eq]
              intro hc
              exact ((List.pairwise_cons.mp hpf).1 x hx)
                ((hc.trans hp_f).symm)
            rw [hfind]
            have hany : (l.any fun x => decide (x.origin = p) || decide (x.temp = p)) = false := by
              rw [List.any_eq_false]
              intro x hx
              simp only [Bool.or_eq_true, decide_eq_true_eq]
              rintro (hc | hc)
              · exact (hcross e (List.mem_cons_self e l) x
                  (List.mem_cons_of_mem e hx)).1 (hc.trans hp_f).symm
              · exact (hcross e (List.mem_cons_self e l) x
                  (List.mem_cons_of_mem e hx)).2 (hc.trans hp_f).symm
            rw [hany]
            rw [hp_f, hfresh e (List.mem_cons_self e l)]
            rfl
          · rw [if_neg hp_o, if_neg hp_f]
            rw [hG p]
            unfold applyBatch
            rw [List.find?_cons_of_neg _
              (by simpa using fun hc => hp_f hc.symm)]
            cases hf2 : l.find? (fun x => x.final = p) with
            | some x => rfl
            | none =>
                rw [List.any_cons]
                have hdo : decide (e.origin = p) = false := by
                  simp only [decide_eq_false_iff_not]
                  exact fun hc => hp_o hc.symm
                by_cases hp_t : p = e.temp
                · have hdt : decide (e.temp = p) = true := by
                    simp [hp_t]
                  rw [hdo, hdt]
                  simp only [Bool.false_or, Bool.or_true]
                  have hany2 : (l.any fun x => decide (x.origin = p) || decide (x.temp = p)) = false := by
                    rw [List.any_eq_false]
                    intro x hx
                    simp only [Bool.or_eq_true, decide_eq_true_eq]
                    rintro (hc | hc)
                    · have hxS := (hmem x (List.mem_cons_of_mem e hx)).1
                      rw [hc, hp_t, htN] at hxS
                      exact Bool.noConfusion hxS
                    · exact ((List.pairwise_cons.mp hpw).1 x hx).2
                        (hc.trans hp_t).symm
                  rw [hany2]
                  rw [hp_t, htN]
                  rfl
                · have hdt : decide (e.temp = p) = false := by
                    simp only [decide_eq_false_iff_not]
                    exact fun hc => hp_t hc.symm
                  rw [hdo, hdt]
                  rfl
      · exact fullPlanOk_tail ⟨⟨hpw, hmem⟩, hpf, hcross, hfresh⟩

/-- Claim C3 as amended: a fully committing batch pushes exactly one
undo mapping holding origin-to-final for every entry, in batch order,
and — provided the final paths are pairwise distinct, free on the
starting filesystem, and disjoint from every origin and temp of the
batch — one subsequent undo call pops it, renames every final back
to its origin, and leaves the filesystem pointwise as before the
batch, with no temp file remaining.  The disjointness proviso is
forced: when a final reuses another entry's vacated origin name, the
batch still commits but a single undo does not restore the originals
(see the counterexample below). -/
theorem c3_commit_undo_roundtrip (st : AppState) (fs : FS) (env : Env)
    (rm : List Entry)
    (hplan : plannedBatch st fs env = some rm)
    (hne : rm ≠ [])
    (hfull : FullPlanOk fs rm)
    (herr1 : ∀ j, env.err1 j = false)
    (herr2 : ∀ j, env.err2 j = false) :
    ∃ out, execute_rename st fs env = some out ∧
      out.st.last_actions = (rm.map (fun e => (e.origin, e.final))) :: st.last_actions ∧
      out.st.messages = st.messages ++ ["Rename completed successfully."] ∧
      (∀ e ∈ rm, out.fs e.final = fs e.origin ∧ out.fs e.origin = none ∧
        out.fs e.temp = none) ∧
      (undo out.st out.fs).1.last_actions = st.last_actions ∧
      (undo out.st out.fs).1.messages = out.st.messages ++ ["Undo attempted."] ∧
      FSeq (undo out.st out.fs).2 fs ∧
      (∀ e ∈ rm, (undo out.st out.fs).2 e.origin = fs e.origin ∧
        (undo out.st out.fs).2 e.temp = none ∧
        (undo out.st out.fs).2 e.final = none) := by
  obtain ⟨hok, hpf, hcross, hfresh⟩ := hfull
  have hptemps : rm.Pairwise (fun a b => a.temp ≠ b.temp) :=
    hok.1.imp (fun h => h.2)
  have hporig : rm.Pairwise (fun a b => a.origin ≠ b.origin) :=
    hok.1.imp (fun h => h.1)
  have hstagedEq := stageAll_eq_stagedFS rm fs hok
  have hph1 : phase1 env.err1 fs 0 rm [] [] =
      P1Res.ok (stageAll fs rm) (rm.map (fun e => (e.temp, e.origin)))
        (rm.map (fun e => ⟨Tag.stage, e.origin, e.temp, true⟩)) := by
    conv_lhs => rw [show rm = rm ++ [] by simp]
    rw [phase1_early_entries env.err1 rm [] fs 0 [] [] hok (fun j _ => herr1 (0 + j))]
    simp [phase1]
  have hmemS : ∀ e ∈ rm, (stageAll fs rm) e.temp = fs e.origin ∧
      (fs e.origin).isSome := by
    intro e he
    refine ⟨?_, (hok.2 e he).1⟩
    rw [hstagedEq e.temp]
    unfold stagedFS
    rw [find?_key_self Entry.temp rm hptemps e he]
  obtain ⟨F, hF1, hF2⟩ := phase2_all_ok env.err2
    (rm.map (fun e => (e.temp, e.origin))) fs herr2 rm (stageAll fs rm) 0
    (rm.map (fun e => ⟨Tag.stage, e.origin, e.temp, true⟩))
    hmemS hptemps hpf (fun a ha b hb => (hcross a ha b hb).2)
  have hFapply : FSeq F (applyBatch fs rm) :=
    (hF2.trans (commitFS_congr fs rm hstagedEq)).trans (commitFS_staged fs rm)
  have hmap : rm.foldl (fun m e => hmInsert m e.origin e.final) [] =
      rm.map (fun e => (e.origin, e.final)) := by
    rw [hmInsert_foldl_eq_map rm [] (fun kv hkv => absurd hkv (by simp)) hporig]
    simp
  have hexec : execute_rename st fs env =
      some ⟨{ st with
                last_actions := (rm.map (fun e => (e.origin, e.final))) :: st.last_actions,
                messages := st.messages ++ ["Rename completed successfully."] },
            F,
            rm.map (fun e => ⟨Tag.stage, e.origin, e.temp, true⟩) ++
              rm.map (fun e => ⟨Tag.commit, e.temp, e.final, true⟩)⟩ := by
    rw [execute_rename_eq st fs env rm hplan hne, hph1]
    dsimp only
    rw [hF1, hmap]
  have hcommitted : ∀ e ∈ rm, F e.final = fs e.origin ∧ F e.origin = none ∧
      F e.temp = none := by
    intro e he
    refine ⟨?_, ?_, ?_⟩
    · rw [hFapply e.final]
      unfold applyBatch
      rw [find?_key_self Entry.final rm hpf e he]
    · rw [hFapply e.origin]
      unfold applyBatch
      have hfind : rm.find? (fun x => x.final = e.origin) = none := by
        rw [List.find?_eq_none]
        intro x hx
        simpa using (hcross x hx e he).1
      rw [hfind]
      have hany : (rm.any fun x => decide (x.origin = e.origin) || decide (x.temp = e.origin)) = true := by
        rw [List.any_eq_true]
        exact ⟨e, he, by simp⟩
      rw [hany]
      rfl
    · rw [hFapply e.temp]
      unfold applyBatch
      have hfind : rm.find? (fun x => x.final = e.temp) = none := by
        rw [List.find?_eq_none]
        intro x hx
        simpa using (hcross x hx e he).2
      rw [hfind]
      have hany : (rm.any fun x => decide (x.origin = e.temp) || decide (x.temp = e.temp)) = true := by
        rw [List.any_eq_true]
        exact ⟨e, he, by simp⟩
      rw [hany]
      rfl
  obtain ⟨hu_msgs, hu_fs⟩ := undo_fold_restores fs rm F [] hFapply
    ⟨hok, hpf, hcross, hfresh⟩
  refine ⟨_, hexec, by simp, by simp, hcommitted, ?_, ?_, ?_, ?_⟩
  · simp [undo]
  · dsimp only
    rw [undo]
    dsimp only
    rw [hu_msgs]
    simp
  · dsimp only
    rw [undo]
    dsimp only
    exact hu_fs
  · intro e he
    dsimp only
    rw [undo]
    dsimp only
    refine ⟨hu_fs e.origin, ?_, ?_⟩
    · rw [hu_fs e.temp]
      exact (hok.2 e he).2
    · rw [hu_fs e.final]
      exact hfresh e he

/-- Witness for claim C3: the two-file demo batch commits fully,
pushes the undo mapping for both entries, and one undo call restores
the filesystem pointwise. -/
theorem c3_commit_undo_roundtrip_witness :
    ∃ out, execute_rename demo_st demo_fs c3_env = some out ∧
      out.st.last_actions =
        (demo_rm.map (fun e => (e.origin, e.final))) :: demo_st.last_actions ∧
      FSeq (undo out.st out.fs).2 demo_fs := by
  obtain ⟨out, h1, h2, h3, h4, h5, h6, h7, h8⟩ :=
    c3_commit_undo_roundtrip demo_st demo_fs c3_env demo_rm (by decide)
      (by decide) (by decide) (fun j => rfl) (fun j => rfl)
  exact ⟨out, h1, h2, h7⟩

/-- Claim C3, counterexample to the claim as frozen: the reverse
renumbering batch 1.txt to 2.txt and 2.txt to 1.txt — each final
claiming the other entry's origin name vacated by staging — commits
fully and pushes the complete undo mapping, but one undo call does
not restore the original paths: renaming 2.txt back to 1.txt clobbers
the file committed at 1.txt, and renaming what remains back to 2.txt
then empties 1.txt, so the run ends with 1.txt absent and file 2 lost
(under POSIX rename-overwrite semantics and insertion-order iteration
of the undo map; the opposite iteration order loses file 1
symmetrically, so no order of Rust's HashMap restores the state). -/
theorem c3_swap_undo_counterexample :
    ((execute_rename c3swap_st c3swap_fs c3_env).map (fun r => r.st.messages)) =
      some ["Rename completed successfully."] ∧
    ((execute_rename c3swap_st c3swap_fs c3_env).map (fun r => r.st.last_actions)) =
      some [[(⟨"d", "1.txt"⟩, ⟨"d", "2.txt"⟩), (⟨"d", "2.txt"⟩, ⟨"d", "1.txt"⟩)]] ∧
    ((execute_rename c3swap_st c3swap_fs c3_env).map (fun r =>
        [r.fs ⟨"d", "1.txt"⟩, r.fs ⟨"d", "2.txt"⟩])) =
      some [some 2, some 1] ∧
    ((execute_rename c3swap_st c3swap_fs c3_env).map (fun r =>
        [(undo r.st r.fs).2 ⟨"d", "1.txt"⟩, (undo r.st r.fs).2 ⟨"d", "2.txt"⟩])) =
      some [none, some 1] ∧
    ((execute_rename c3swap_st c3swap_fs c3_env).map (fun r =>
        (undo r.st r.fs).1.last_actions)) = some [] ∧
    c3swap_fs ⟨"d", "1.txt"⟩ = some 1 ∧ c3swap_fs ⟨"d", "2.txt"⟩ = some 2 := by
  refine ⟨by decide, by decide, by decide, by decide, by decide, by decide, by decide⟩

end BulkReName
